import Mathlib

/-!
Shallow embedding of the `basis_treas_sf` repository: the Treasury-SF basis
pipeline (`src/calc_treasury_sf_basis.py`) and the plotting front-end
(`src/plot_figure.py`).

Modelling conventions:
* Dates are `ℕ`; cell values are `Option ℚ` (`none` models NaN, which
  propagates through arithmetic as in pandas).
* A `DF` is a pandas DataFrame: a date index plus labelled columns; a column
  stores its value at each date of the index as a function of the date.  Column
  labels are assumed unique within a frame (true of every frame the pipeline
  builds); lookups take the first match, as pandas does for unique labels.
* The final subsetting step `df_merged[basis_cols].copy()` materializes a
  `Table`, whose columns are lists aligned with the index, so that `ffill`
  (positional along the index) is expressed directly.
* The plotly figure is modelled as its list of traces, and `fig.write_html`
  as an update of an abstract filesystem map from paths to figures.
-/

namespace TreasurySF

abbrev Val := Option ℚ

/-- A pandas DataFrame: date index plus labelled columns keyed by date. -/
structure DF where
  index : List ℕ
  cols : List (String × (ℕ → Val))

/-- A materialized frame (the result of `df[cols].copy()`): columns are lists
aligned with the index. -/
structure Table where
  index : List ℕ
  cols : List (String × List Val)
deriving DecidableEq

/-! ### String helpers (Python `in`, `split()[0]`, `str.replace`) -/

/-- `charsPre p l` : `p` is a prefix of `l` (Python `str.startswith`, on chars). -/
def charsPre : List Char → List Char → Bool
  | [], _ => true
  | _ :: _, [] => false
  | a :: as, b :: bs => a == b && charsPre as bs

/-- `charsSub p l` : `p` occurs as a contiguous substring of `l`. -/
def charsSub (p : List Char) : List Char → Bool
  | [] => p.isEmpty
  | b :: bs => charsPre p (b :: bs) || charsSub p bs

/-- Python `pat in s` (substring containment). -/
def strHas (s pat : String) : Bool := charsSub pat.toList s.toList

/-- Python `s.split()[0]`: the first whitespace-delimited token (column names
here never start with whitespace). -/
def firstTok (s : String) : String := String.mk (s.toList.takeWhile (fun c => !(c == ' ')))

/-- Left-to-right non-overlapping replacement of `pat` by `rep`
(Python `str.replace` on chars). -/
def replaceAll (pat rep : List Char) : List Char → List Char
  | [] => []
  | c :: rest =>
    if pat ≠ [] ∧ charsPre pat (c :: rest) = true then
      rep ++ replaceAll pat rep (List.drop (pat.length - 1) rest)
    else
      c :: replaceAll pat rep rest
termination_by l => l.length
decreasing_by
  all_goals simp [List.length_drop]
  omega

/-- Python `s.replace(pat, rep)`. -/
def strReplace (s pat rep : String) : String :=
  String.mk (replaceAll pat.toList rep.toList s.toList)

/-! ### Fixed lookup tables (module constants of `calc_treasury_sf_basis.py`) -/

def TREASURY_MAPPING : List (String × String) :=
  [("USGG2YR", "2Y"), ("USGG5YR", "5Y"), ("USGG10YR", "10Y"),
   ("USGG20YR", "20Y"), ("USGG30YR", "30Y")]

def SF_MAPPING : List (String × String) :=
  [("USOSFR2", "2Y"), ("USOSFR5", "5Y"), ("USOSFR10", "10Y"),
   ("USOSFR20", "20Y"), ("USOSFR30", "30Y")]

def OUTPUT_COLUMNS : List (String × String) :=
  [("2Y", "Treasury_SF_2Y"), ("5Y", "Treasury_SF_5Y"), ("10Y", "Treasury_SF_10Y"),
   ("20Y", "Treasury_SF_20Y"), ("30Y", "Treasury_SF_30Y")]

/-- First-match association-list lookup (Python `dict` lookup for these keys). -/
def lookupKey : List (String × String) → String → Option String
  | [], _ => none
  | p :: r, k => if p.1 = k then some p.2 else lookupKey r k

def tenors : List String := ["2Y", "5Y", "10Y", "20Y", "30Y"]

def output_names : List String := OUTPUT_COLUMNS.map Prod.snd

/-! ### Column access on `DF` (pandas label lookup, unique labels) -/

def colsHas (cols : List (String × (ℕ → Val))) (c : String) : Bool :=
  match cols with
  | [] => false
  | p :: r => decide (p.1 = c) || colsHas r c

def colsGet (cols : List (String × (ℕ → Val))) (c : String) : ℕ → Val :=
  match cols with
  | [] => fun _ => none
  | p :: r => if p.1 = c then p.2 else colsGet r c

def hasCol (df : DF) (c : String) : Bool := colsHas df.cols c

def getCol (df : DF) (c : String) : ℕ → Val := colsGet df.cols c

/-- `df[c] = v`: overwrite the column when the label exists, else append it
(pandas column assignment). -/
def setCol (df : DF) (c : String) (v : ℕ → Val) : DF :=
  if colsHas df.cols c then
    ⟨df.index, df.cols.map (fun p => if p.1 = c then (p.1, v) else p)⟩
  else
    ⟨df.index, df.cols ++ [(c, v)]⟩

/-! ### `prepare_data` -/

/-- Rename rule of the inner `clean_columns`: a column containing `_PX_LAST`
whose leading ticker is in the mapping becomes `{tenor}_{suffix}`; every other
column keeps its name. -/
def renameCol (mapping : List (String × String)) (suffix : String) (c : String) : String :=
  if strHas c "_PX_LAST" then
    match lookupKey mapping (firstTok c) with
    | some tenor => tenor ++ "_" ++ suffix
    | none => c
  else c

/-- `clean_columns(df, mapping, suffix)`: `df.rename(columns=new_cols)`. -/
def clean_columns (df : DF) (mapping : List (String × String)) (suffix : String) : DF :=
  ⟨df.index, df.cols.map (fun p => (renameCol mapping suffix p.1, p.2))⟩

/-- `prepare_data(treasury_df, sf_df)`: clean both column sets, then inner-join
on the date index (kept dates are those of the left index also present in the
right index, in left order; columns of both sides are carried over). -/
def prepare_data (treasury_df sf_df : DF) : DF :=
  let t := clean_columns treasury_df TREASURY_MAPPING "Treasury"
  let s := clean_columns sf_df SF_MAPPING "SF"
  ⟨t.index.filter (fun d => s.index.contains d), t.cols ++ s.cols⟩

/-! ### `compute_treasury_sf_basis` -/

/-- NaN-propagating `(treasury - sf) * 100`. -/
def basisVal (t s : Val) : Val :=
  match t, s with
  | some a, some b => some ((a - b) * 100)
  | _, _ => none

def treasColName (tenor : String) : String := tenor ++ "_Treasury"

def sfColName (tenor : String) : String := tenor ++ "_SF"

/-- `OUTPUT_COLUMNS[tenor]` (every tenor of the loop is a key, so the default
is never reached). -/
def outColName (tenor : String) : String := (lookupKey OUTPUT_COLUMNS tenor).getD ""

/-- One iteration of the tenor loop in `compute_treasury_sf_basis`. -/
def basisStep (df : DF) (tenor : String) : DF :=
  if hasCol df (treasColName tenor) && hasCol df (sfColName tenor) then
    setCol df (outColName tenor)
      (fun d => basisVal (getCol df (treasColName tenor) d) (getCol df (sfColName tenor) d))
  else df

def basisFold (ts : List String) (df : DF) : DF := ts.foldl basisStep df

def compute_treasury_sf_basis (df_merged : DF) : DF := basisFold tenors df_merged

/-! ### `calculate_treasury_sf_basis` (post-load part) -/

/-- Positional forward fill of one column, carrying the last valid value. -/
def ffillList (acc : Val) : List Val → List Val
  | [] => []
  | none :: r => acc :: ffillList acc r
  | some a :: r => some a :: ffillList (some a) r

/-- `df.ffill()`: forward fill every column along the index. -/
def ffillTable (t : Table) : Table :=
  ⟨t.index, t.cols.map (fun p => (p.1, ffillList none p.2))⟩

/-- `calculate_treasury_sf_basis` up to (not including) the forward fill:
prepare, optional `.loc[:end_date]` truncation (inclusive, sorted index),
compute, then `df_merged[basis_cols].copy()`. -/
def basis_before_ffill (end_date : Option ℕ) (treasury_df sf_df : DF) : Table :=
  let m := prepare_data treasury_df sf_df
  let m := match end_date with
    | some d => DF.mk (m.index.filter (fun x => decide (x ≤ d))) m.cols
    | none => m
  let m := compute_treasury_sf_basis m
  let basis_cols := output_names.filter (fun c => hasCol m c)
  ⟨m.index, basis_cols.map (fun c => (c, m.index.map (getCol m c)))⟩

/-- `calculate_treasury_sf_basis` on already-loaded inputs: the subset of basis
columns, forward filled. -/
def calculate_treasury_sf_basis (end_date : Option ℕ) (treasury_df sf_df : DF) : Table :=
  ffillTable (basis_before_ffill end_date treasury_df sf_df)

/-! ### Access on `Table` -/

def tblHas (t : Table) (c : String) : Bool :=
  (t.cols.find? (fun p => decide (p.1 = c))).isSome

def tblColL (t : Table) (c : String) : List Val :=
  match t.cols.find? (fun p => decide (p.1 = c)) with
  | some p => p.2
  | none => []

/-- The `(date, value)` pairs of a column, in index order. -/
def tblSeries (t : Table) (c : String) : List (ℕ × Val) := t.index.zip (tblColL t c)

/-- The last `some` among `l`, after `acc` (the most recent valid value). -/
def lastSome (acc : Val) : List Val → Val
  | [] => acc
  | none :: r => lastSome acc r
  | some a :: r => lastSome (some a) r

/-! ### `plot_figure` -/

structure Trace where
  label : String
  xy : List (ℕ × ℚ)
deriving DecidableEq

structure Figure where
  traces : List Trace
deriving DecidableEq

/-- Abstract filesystem: path to figure written there. -/
def FS : Type := String → Option Figure

def plot_tenors : List String :=
  ["Treasury_SF_2Y", "Treasury_SF_5Y", "Treasury_SF_10Y", "Treasury_SF_20Y", "Treasury_SF_30Y"]

/-- The windowing and `dropna` applied to one series in `plot_figure`:
`loc[start:end]` / `loc[start:]` are inclusive label slices (sorted index);
with no start date the window is the full range and the end date is unused. -/
def seriesWindow (start_dt end_dt : Option ℕ) (s : List (ℕ × Val)) : List (ℕ × ℚ) :=
  let w : List (ℕ × Val) := match start_dt with
    | some a =>
      (match end_dt with
       | some b => s.filter (fun p => decide (a ≤ p.1) && decide (p.1 ≤ b))
       | none => s.filter (fun p => decide (a ≤ p.1)))
    | none => s
  w.filterMap (fun p => p.2.map (fun v => (p.1, v)))

/-- `plot_figure(basis_df, save_path, start_date, end_date)`: build one trace
per tenor column present (absent tenors are skipped), then write the figure to
`save_path`.  Returns the figure and the updated filesystem. -/
def plot_figure (fs : FS) (basis_df : Table) (save_path : String)
    (start_date end_date : Option ℕ) : Figure × FS :=
  let fig : Figure := ⟨plot_tenors.foldl (fun acc tenor =>
    if tblHas basis_df tenor then
      acc ++ [⟨strReplace tenor "Treasury_SF_" "",
              seriesWindow start_date end_date (tblSeries basis_df tenor)⟩]
    else acc) []⟩
  (fig, fun p => if p = save_path then some fig else fs p)

/-! ## Column-access lemmas -/

lemma colsGet_map_replace (cols : List (String × (ℕ → Val))) (c : String) (v : ℕ → Val)
    (h : colsHas cols c = true) :
    colsGet (cols.map (fun p => if p.1 = c then (p.1, v) else p)) c = v := by
  induction cols with
  | nil => simp [colsHas] at h
  | cons p r ih =>
    by_cases hp : p.1 = c
    · simp [colsGet, hp]
    · simp only [colsHas, decide_eq_true_eq, Bool.or_eq_true] at h
      rcases h with h | h
      · exact absurd h hp
      · simpa [colsGet, hp] using ih h

lemma colsGet_append_single (cols : List (String × (ℕ → Val))) (c : String) (v : ℕ → Val)
    (h : colsHas cols c = false) :
    colsGet (cols ++ [(c, v)]) c = v := by
  induction cols with
  | nil => simp [colsGet]
  | cons p r ih =>
    simp only [colsHas, Bool.or_eq_false_iff, decide_eq_false_iff_not] at h
    simpa [colsGet, h.1] using ih h.2

lemma getCol_setCol_self (df : DF) (c : String) (v : ℕ → Val) :
    getCol (setCol df c v) c = v := by
  unfold getCol setCol
  by_cases h : colsHas df.cols c
  · simpa [h] using colsGet_map_replace df.cols c v h
  · simpa [h] using colsGet_append_single df.cols c v (by simpa using h)

lemma colsGet_map_replace_ne (cols : List (String × (ℕ → Val))) (c c' : String) (v : ℕ → Val)
    (h : c' ≠ c) :
    colsGet (cols.map (fun p => if p.1 = c then (p.1, v) else p)) c' = colsGet cols c' := by
  induction cols with
  | nil => rfl
  | cons p r ih =>
    by_cases hq : p.1 = c'
    · simp [colsGet, hq, h]
    · by_cases hp : p.1 = c
      · simp [colsGet, hp, hq, Ne.symm h, ih]
      · simp [colsGet, hp, hq, ih]

lemma colsGet_append_ne (cols : List (String × (ℕ → Val))) (c c' : String) (v : ℕ → Val)
    (h : c' ≠ c) :
    colsGet (cols ++ [(c, v)]) c' = colsGet cols c' := by
  induction cols with
  | nil => simp [colsGet, Ne.symm h]
  | cons p r ih => by_cases hq : p.1 = c' <;> simp [colsGet, hq, ih]

lemma getCol_setCol_of_ne (df : DF) (c c' : String) (v : ℕ → Val) (h : c' ≠ c) :
    getCol (setCol df c v) c' = getCol df c' := by
  unfold getCol setCol
  by_cases hc : colsHas df.cols c
  · simpa [hc] using colsGet_map_replace_ne df.cols c c' v h
  · simpa [hc] using colsGet_append_ne df.cols c c' v h

lemma colsHas_map_replace (cols : List (String × (ℕ → Val))) (c c' : String) (v : ℕ → Val) :
    colsHas (cols.map (fun p => if p.1 = c then (p.1, v) else p)) c' = colsHas cols c' := by
  induction cols with
  | nil => rfl
  | cons p r ih =>
    by_cases hp : p.1 = c
    · simp [colsHas, hp, ih]
    · simp [colsHas, hp, ih]

lemma colsHas_append_ne (cols : List (String × (ℕ → Val))) (c c' : String) (v : ℕ → Val)
    (h : c' ≠ c) :
    colsHas (cols ++ [(c, v)]) c' = colsHas cols c' := by
  induction cols with
  | nil => simp [colsHas, Ne.symm h]
  | cons p r ih => simp [colsHas, ih]

lemma hasCol_setCol_of_ne (df : DF) (c c' : String) (v : ℕ → Val) (h : c' ≠ c) :
    hasCol (setCol df c v) c' = hasCol df c' := by
  unfold hasCol setCol
  by_cases hc : colsHas df.cols c
  · simpa [hc] using colsHas_map_replace df.cols c c' v
  · simpa [hc] using colsHas_append_ne df.cols c c' v h

lemma index_setCol (df : DF) (c : String) (v : ℕ → Val) :
    (setCol df c v).index = df.index := by
  unfold setCol
  by_cases hc : colsHas df.cols c <;> simp [hc]

/-! ## Lemmas on the tenor loop of `compute_treasury_sf_basis` -/

lemma basisFold_nil (df : DF) : basisFold [] df = df := rfl

lemma basisFold_cons (t : String) (ts : List String) (df : DF) :
    basisFold (t :: ts) df = basisFold ts (basisStep df t) := rfl

lemma basisStep_index (df : DF) (t : String) : (basisStep df t).index = df.index := by
  unfold basisStep
  by_cases h : hasCol df (treasColName t) && hasCol df (sfColName t)
  · simp [h, index_setCol]
  · simp [h]

lemma basisStep_getCol_of_ne (df : DF) (t : String) (c : String) (h : outColName t ≠ c) :
    getCol (basisStep df t) c = getCol df c := by
  unfold basisStep
  by_cases hc : hasCol df (treasColName t) && hasCol df (sfColName t)
  · simp only [hc, if_pos]
    exact getCol_setCol_of_ne df (outColName t) c _ (Ne.symm h)
  · simp [hc]

lemma basisStep_hasCol_of_ne (df : DF) (t : String) (c : String) (h : outColName t ≠ c) :
    hasCol (basisStep df t) c = hasCol df c := by
  unfold basisStep
  by_cases hc : hasCol df (treasColName t) && hasCol df (sfColName t)
  · simp only [hc, if_pos]
    exact hasCol_setCol_of_ne df (outColName t) c _ (Ne.symm h)
  · simp [hc]

lemma basisFold_index (ts : List String) (df : DF) : (basisFold ts df).index = df.index := by
  induction ts generalizing df with
  | nil => rfl
  | cons t r ih => rw [basisFold_cons, ih, basisStep_index]

lemma basisFold_getCol_of_ne (ts : List String) (df : DF) (c : String)
    (h : ∀ t ∈ ts, outColName t ≠ c) :
    getCol (basisFold ts df) c = getCol df c := by
  induction ts generalizing df with
  | nil => rfl
  | cons t r ih =>
    rw [basisFold_cons, ih _ (fun x hx => h x (List.mem_cons_of_mem t hx)),
      basisStep_getCol_of_ne df t c (h t (List.mem_cons_self t r))]

lemma basisFold_hasCol_of_ne (ts : List String) (df : DF) (c : String)
    (h : ∀ t ∈ ts, outColName t ≠ c) :
    hasCol (basisFold ts df) c = hasCol df c := by
  induction ts generalizing df with
  | nil => rfl
  | cons t r ih =>
    rw [basisFold_cons, ih _ (fun x hx => h x (List.mem_cons_of_mem t hx)),
      basisStep_hasCol_of_ne df t c (h t (List.mem_cons_self t r))]

/-- Core lemma for the basis formula: if the tenor is in the processed list,
output names never collide with input names, output names are pairwise
distinct, and both source columns are present, then the output column of the
fold is exactly the NaN-propagating scaled difference of the source columns
of the starting frame. -/
lemma basisFold_out_spec (ts : List String) (df : DF) (tenor : String)
    (hmem : tenor ∈ ts)
    (hdisj : ∀ a ∈ ts, ∀ b ∈ ts, outColName a ≠ treasColName b ∧ outColName a ≠ sfColName b)
    (hpair : ts.Pairwise (fun a b => outColName a ≠ outColName b))
    (ht : hasCol df (treasColName tenor) = true)
    (hs : hasCol df (sfColName tenor) = true) :
    getCol (basisFold ts df) (outColName tenor)
      = fun d => basisVal (getCol df (treasColName tenor) d) (getCol df (sfColName tenor) d) := by
  induction ts generalizing df with
  | nil => exact absurd hmem (List.not_mem_nil tenor)
  | cons t r ih =>
    rcases List.mem_cons.mp hmem with heq | hmem'
    · subst heq
      rw [basisFold_cons]
      have hstep : basisStep df tenor
          = setCol df (outColName tenor)
              (fun d => basisVal (getCol df (treasColName tenor) d)
                (getCol df (sfColName tenor) d)) := by
        unfold basisStep
        rw [ht, hs]
        simp
      rw [hstep]
      have hpres : ∀ x ∈ r, outColName x ≠ outColName tenor := by
        intro x hx
        exact Ne.symm ((List.pairwise_cons.mp hpair).1 x hx)
      rw [basisFold_getCol_of_ne r _ _ hpres, getCol_setCol_self]
    · have htm : t ∈ t :: r := List.mem_cons_self t r
      have htenm : tenor ∈ t :: r := List.mem_cons_of_mem t hmem'
      have hnt : outColName t ≠ treasColName tenor := (hdisj t htm tenor htenm).1
      have hns : outColName t ≠ sfColName tenor := (hdisj t htm tenor htenm).2
      rw [basisFold_cons]
      rw [ih (basisStep df t) hmem'
        (fun a ha b hb => hdisj a (List.mem_cons_of_mem t ha) b (List.mem_cons_of_mem t hb))
        (List.pairwise_cons.mp hpair).2
        (by rw [basisStep_hasCol_of_ne df t _ hnt]; exact ht)
        (by rw [basisStep_hasCol_of_ne df t _ hns]; exact hs)]
      rw [basisStep_getCol_of_ne df t _ hnt, basisStep_getCol_of_ne df t _ hns]

/-- Core lemma for column absence: if every processed tenor whose output name
is `c` has a missing source column, the fold leaves the presence of `c`
unchanged. -/
lemma basisFold_hasCol_eq (ts : List String) (df : DF) (c : String)
    (hdisj : ∀ a ∈ ts, ∀ b ∈ ts, outColName a ≠ treasColName b ∧ outColName a ≠ sfColName b)
    (hc : ∀ t ∈ ts, outColName t = c →
      ¬(hasCol df (treasColName t) = true ∧ hasCol df (sfColName t) = true)) :
    hasCol (basisFold ts df) c = hasCol df c := by
  induction ts generalizing df with
  | nil => rfl
  | cons t r ih =>
    have htm : t ∈ t :: r := List.mem_cons_self t r
    by_cases hcond : (hasCol df (treasColName t) && hasCol df (sfColName t)) = true
    · have hne : outColName t ≠ c := by
        intro heq
        exact hc t htm heq (by simpa using hcond)
      have hstep : ∀ c', outColName t ≠ c' → hasCol (basisStep df t) c' = hasCol df c' :=
        fun c' h' => basisStep_hasCol_of_ne df t c' h'
      rw [basisFold_cons]
      rw [ih (basisStep df t)
        (fun a ha b hb => hdisj a (List.mem_cons_of_mem t ha) b (List.mem_cons_of_mem t hb))
        (fun x hx heq => by
          rw [hstep (treasColName x) (hdisj t htm x (List.mem_cons_of_mem t hx)).1,
            hstep (sfColName x) (hdisj t htm x (List.mem_cons_of_mem t hx)).2]
          exact hc x (List.mem_cons_of_mem t hx) heq)]
      exact hstep c hne
    · have hstep : basisStep df t = df := by unfold basisStep; simp [hcond]
      rw [basisFold_cons, hstep]
      exact ih df
        (fun a ha b hb => hdisj a (List.mem_cons_of_mem t ha) b (List.mem_cons_of_mem t hb))
        (fun x hx heq => hc x (List.mem_cons_of_mem t hx) heq)

/-! ## Forward-fill lemmas -/

/-- Positional characterization of forward fill: a valid entry is kept; a
missing entry becomes the most recent valid value among the earlier entries
(seeded with `acc`), however far back it is. -/
lemma ffillList_getD (l : List Val) (acc : Val) (i : ℕ) (h : i < l.length) :
    (ffillList acc l).getD i none =
      match l.getD i none with
      | some a => some a
      | none => lastSome acc (l.take i) := by
  induction l generalizing acc i with
  | nil => simp at h
  | cons v r ih =>
    cases i with
    | zero => cases v <;> simp [ffillList, lastSome]
    | succ i =>
      have h' : i < r.length := by simpa using h
      cases v with
      | none => simpa [ffillList, lastSome] using ih acc i h'
      | some a => simpa [ffillList, lastSome] using ih (some a) i h'

lemma ffillList_length (acc : Val) (l : List Val) :
    (ffillList acc l).length = l.length := by
  induction l generalizing acc with
  | nil => rfl
  | cons v r ih => cases v <;> simp [ffillList, ih]

lemma tblColL_ffillTable (t : Table) (c : String) :
    tblColL (ffillTable t) c = ffillList none (tblColL t c) := by
  unfold tblColL ffillTable
  obtain ⟨idx, cols⟩ := t
  induction cols with
  | nil => rfl
  | cons p r ih =>
    by_cases hp : p.1 = c
    · simp [List.find?_cons, hp]
    · simpa [List.find?_cons, hp] using ih

/-! ## Lemmas on `Table` access and the plotting fold -/

lemma tblHas_exists (t : Table) (c : String) (h : tblHas t c = true) :
    ∃ p ∈ t.cols, p.1 = c := by
  unfold tblHas at h
  rw [List.find?_isSome] at h
  obtain ⟨p, hp, hpc⟩ := h
  exact ⟨p, hp, by simpa using hpc⟩

/-- A fold that conditionally appends one element per item is the map of the
filtered list. -/
lemma foldl_filter_map {α β : Type} (f : α → Bool) (g : α → β) (l : List α) (acc : List β) :
    l.foldl (fun a x => if f x then a ++ [g x] else a) acc = acc ++ (l.filter f).map g := by
  induction l generalizing acc with
  | nil => simp
  | cons x r ih =>
    by_cases hx : f x
    · simp [List.foldl_cons, hx, ih, List.filter_cons]
    · simp [List.foldl_cons, hx, ih, List.filter_cons]

/-! ## Concrete frames used as witnesses -/

/-- Treasury input of the end-to-end scenario: 2Y yield 4.50 on day 1 and
4.60 on day 2, in raw Bloomberg column format. -/
def t5 : DF :=
  ⟨[1, 2], [("USGG2YR Index_PX_LAST",
    fun d => if d = 1 then some (9/2) else if d = 2 then some (23/5) else none)]⟩

/-- SF input of the end-to-end scenario: 2Y rate 4.30 on day 1, missing (NaN)
on day 2. -/
def sf5 : DF :=
  ⟨[1, 2], [("USOSFR2 Curncy_PX_LAST",
    fun d => if d = 1 then some (43/10) else none)]⟩

/-- A merged frame with both 2Y source columns. -/
def dfBoth2Y : DF :=
  ⟨[0], [("2Y_Treasury", fun _ => some 5), ("2Y_SF", fun _ => some 3)]⟩

/-! ## Claim theorems -/

/-- C1: for every merged table and every tenor of {2Y, 5Y, 10Y, 20Y, 30Y}
whose Treasury column and SF column are both present,
`compute_treasury_sf_basis` produces a basis column whose value at every date
equals `(treasury_value - sf_value) * 100` exactly. -/
theorem compute_basis_formula (df : DF) (tenor : String) (hmem : tenor ∈ tenors)
    (ht : hasCol df (treasColName tenor) = true)
    (hs : hasCol df (sfColName tenor) = true)
    (d : ℕ) (a b : ℚ)
    (hta : getCol df (treasColName tenor) d = some a)
    (hsb : getCol df (sfColName tenor) d = some b) :
    getCol (compute_treasury_sf_basis df) (outColName tenor) d = some ((a - b) * 100) := by
  have h := basisFold_out_spec tenors df tenor hmem (by decide) (by decide) ht hs
  unfold compute_treasury_sf_basis
  rw [congrFun h d, hta, hsb]
  rfl

theorem compute_basis_formula_witness :
    getCol (compute_treasury_sf_basis dfBoth2Y) (outColName "2Y") 0 = some ((5 - 3) * 100) :=
  compute_basis_formula dfBoth2Y "2Y" (by decide) (by decide) (by decide) 0 5 3 rfl rfl

/-- C2: `prepare_data` performs a strict inner join on date: a date present in
only one of the two inputs is absent from the merged table, and therefore from
the output of `calculate_treasury_sf_basis` before the forward fill. -/
theorem prepare_data_strict_inner_join (t sf : DF) (d : ℕ)
    (h : ¬(d ∈ t.index ∧ d ∈ sf.index)) :
    d ∉ (prepare_data t sf).index ∧ d ∉ (basis_before_ffill none t sf).index := by
  have hmerged : (prepare_data t sf).index = t.index.filter (fun x => sf.index.contains x) :=
    rfl
  have hmem : d ∉ t.index.filter (fun x => sf.index.contains x) := by
    intro hmem
    rw [List.mem_filter] at hmem
    exact h ⟨hmem.1, by simpa using hmem.2⟩
  constructor
  · rw [hmerged]; exact hmem
  · have hb : (basis_before_ffill none t sf).index
        = (compute_treasury_sf_basis (prepare_data t sf)).index := rfl
    rw [hb]
    unfold compute_treasury_sf_basis
    rw [basisFold_index, hmerged]
    exact hmem

theorem prepare_data_strict_inner_join_witness :
    (1 : ℕ) ∉ (prepare_data ⟨[1], []⟩ ⟨[2], []⟩).index ∧
    (1 : ℕ) ∉ (basis_before_ffill none ⟨[1], []⟩ ⟨[2], []⟩).index :=
  prepare_data_strict_inner_join ⟨[1], []⟩ ⟨[2], []⟩ 1 (by decide)

/-- C5: end-to-end scenario: Treasury = {2Y: 4.50 on day 1, 4.60 on day 2},
SF = {2Y: 4.30 on day 1, missing on day 2}; the pipeline yields the 2Y basis
20.0 bps on day 1 and 20.0 bps on day 2 (carried forward). -/
theorem end_to_end_scenario :
    calculate_treasury_sf_basis none t5 sf5 =
      ⟨[1, 2], [("Treasury_SF_2Y", [some 20, some 20])]⟩ := by
  have hraw : calculate_treasury_sf_basis none t5 sf5 =
      ⟨[1, 2], [("Treasury_SF_2Y",
        [some ((9/2 - 43/10) * 100), some ((9/2 - 43/10) * 100)])]⟩ := rfl
  have hval : ((9/2 - 43/10) * 100 : ℚ) = 20 := by norm_num
  rw [hraw, hval]

/-- C3: the forward-fill step of `calculate_treasury_sf_basis` never fills
backward: in every column of the result, a valid entry of the pre-fill table is
kept unchanged (so in particular the first valid value is never altered, and
every entry before it stays missing), and a missing entry is replaced by the
most recent prior valid value, with no bound on the gap length. -/
theorem ffill_never_backward (t sf : DF) (e : Option ℕ) (c : String) (i : ℕ)
    (h : i < (tblColL (basis_before_ffill e t sf) c).length) :
    (tblColL (calculate_treasury_sf_basis e t sf) c).getD i none =
      match (tblColL (basis_before_ffill e t sf) c).getD i none with
      | some a => some a
      | none => lastSome none ((tblColL (basis_before_ffill e t sf) c).take i) := by
  unfold calculate_treasury_sf_basis
  rw [tblColL_ffillTable]
  exact ffillList_getD _ none i h

theorem ffill_never_backward_witness :
    (tblColL (calculate_treasury_sf_basis none t5 sf5) "Treasury_SF_2Y").getD 1 none
      = some 20 := by
  rw [ffill_never_backward t5 sf5 none "Treasury_SF_2Y" 1 (by decide)]
  have hraw : (tblColL (basis_before_ffill none t5 sf5) "Treasury_SF_2Y")
      = [some ((9/2 - 43/10) * 100), none] := rfl
  rw [hraw]
  have hval : ((9/2 - 43/10) * 100 : ℚ) = 20 := by norm_num
  simp [lastSome, hval]

/-- Inputs showing that a pre-existing column named like an output column
survives `prepare_data` (it is not in Bloomberg ticker format, so
`clean_columns` leaves it alone) and reaches `compute_treasury_sf_basis`. -/
def tC4 : DF := ⟨[0], [("Treasury_SF_2Y", fun _ => some 7)]⟩

def sfC4 : DF := ⟨[0], []⟩

/-- C4 counterexample: a merged table (an output of `prepare_data`) that has
neither `2Y_Treasury` nor `2Y_SF` but already carries a column named
`Treasury_SF_2Y`; `compute_treasury_sf_basis` produces no column for the
tenor, yet the tenor's column is present in the result, contradicting the
claimed absence. -/
theorem compute_skips_missing_tenor_counterexample :
    hasCol (prepare_data tC4 sfC4) (treasColName "2Y") = false ∧
    hasCol (prepare_data tC4 sfC4) (sfColName "2Y") = false ∧
    hasCol (compute_treasury_sf_basis (prepare_data tC4 sfC4)) (outColName "2Y") = true := by
  decide

/-- C4 (amended): for every merged table and every tenor missing the Treasury
column or the SF column, `compute_treasury_sf_basis` adds no output column for
that tenor and raises no error: the presence of the tenor's output column is
exactly what it was in the input, so it is absent from the result whenever it
was not already a column of the input. -/
theorem compute_skips_missing_tenor (df : DF) (tenor : String) (hmem : tenor ∈ tenors)
    (hmiss : hasCol df (treasColName tenor) = false ∨ hasCol df (sfColName tenor) = false) :
    hasCol (compute_treasury_sf_basis df) (outColName tenor) = hasCol df (outColName tenor) := by
  have hinj : ∀ a ∈ tenors, ∀ b ∈ tenors, outColName a = outColName b → a = b := by decide
  unfold compute_treasury_sf_basis
  refine basisFold_hasCol_eq tenors df (outColName tenor) (by decide) ?_
  intro x hx heq hboth
  have hxt : x = tenor := hinj x hx tenor hmem heq
  subst hxt
  rcases hmiss with hm | hm <;> simp [hm] at hboth

theorem compute_skips_missing_tenor_witness :
    hasCol (compute_treasury_sf_basis ⟨[0], [("2Y_Treasury", fun _ => some 1)]⟩)
        (outColName "2Y")
      = hasCol (⟨[0], [("2Y_Treasury", fun _ => some 1)]⟩ : DF) (outColName "2Y") :=
  compute_skips_missing_tenor ⟨[0], [("2Y_Treasury", fun _ => some 1)]⟩ "2Y"
    (by decide) (Or.inr (by decide))

/-- Every column of the final result of `calculate_treasury_sf_basis` is one
of the five fixed output names. -/
lemma calc_cols_subset (e : Option ℕ) (t sf : DF) (c : String)
    (h : tblHas (calculate_treasury_sf_basis e t sf) c = true) :
    c ∈ output_names := by
  obtain ⟨p, hp, hpc⟩ := tblHas_exists _ c h
  unfold calculate_treasury_sf_basis ffillTable at hp
  simp only [List.mem_map] at hp
  obtain ⟨q, hq, hqp⟩ := hp
  unfold basis_before_ffill at hq
  simp only [List.mem_map] at hq
  obtain ⟨n, hn, hnq⟩ := hq
  have hn' : n ∈ output_names := List.mem_of_mem_filter hn
  have : q.1 = n := by rw [← hnq]
  have : p.1 = n := by rw [← hqp, this]
  rw [← hpc, this]
  exact hn'

/-- C6: input columns in Bloomberg ticker format (containing `_PX_LAST`)
whose leading ticker is not in the two fixed lookup tables are dropped
silently: no error is raised (every operation is total) and the column does
not appear in the result of the basis calculator. -/
theorem unmapped_ticker_dropped (t sf : DF) (c : String)
    (hcol : hasCol t c = true ∨ hasCol sf c = true)
    (hpx : strHas c "_PX_LAST" = true)
    (hunmapped : lookupKey TREASURY_MAPPING (firstTok c) = none ∧
      lookupKey SF_MAPPING (firstTok c) = none) :
    tblHas (calculate_treasury_sf_basis none t sf) c = false := by
  by_contra hfalse
  have hmem : c ∈ output_names :=
    calc_cols_subset none t sf c (by simpa using hfalse)
  simp only [output_names, OUTPUT_COLUMNS, List.map_cons, List.map_nil,
    List.mem_cons, List.not_mem_nil, or_false] at hmem
  rcases hmem with h | h | h | h | h <;> (subst h; exact absurd hpx (by decide))

theorem unmapped_ticker_dropped_witness :
    tblHas (calculate_treasury_sf_basis none
      ⟨[0], [("FOO Index_PX_LAST", fun _ => some 1)]⟩ ⟨[0], []⟩) "FOO Index_PX_LAST"
      = false :=
  unmapped_ticker_dropped ⟨[0], [("FOO Index_PX_LAST", fun _ => some 1)]⟩ ⟨[0], []⟩
    "FOO Index_PX_LAST" (Or.inl (by decide)) (by decide) (by decide)

/-- C7: if the two inputs share no date, `calculate_treasury_sf_basis`
returns an empty result — the index is empty and every column holds zero
rows — and does not fail (the computation is total). -/
theorem empty_intersection_empty_result (t sf : DF)
    (h : ∀ d, ¬(d ∈ t.index ∧ d ∈ sf.index)) :
    (calculate_treasury_sf_basis none t sf).index = [] ∧
    ∀ p ∈ (calculate_treasury_sf_basis none t sf).cols, p.2 = ([] : List Val) := by
  have hmerged : (prepare_data t sf).index = [] := by
    rw [show (prepare_data t sf).index = t.index.filter (fun x => sf.index.contains x) from rfl]
    rw [List.filter_eq_nil_iff]
    intro a ha hc
    exact h a ⟨ha, by simpa using hc⟩
  have hidx : (basis_before_ffill none t sf).index = [] := by
    have hb : (basis_before_ffill none t sf).index
        = (compute_treasury_sf_basis (prepare_data t sf)).index := rfl
    rw [hb]
    unfold compute_treasury_sf_basis
    rw [basisFold_index, hmerged]
  constructor
  · rw [show (calculate_treasury_sf_basis none t sf).index
        = (basis_before_ffill none t sf).index from rfl]
    exact hidx
  · intro p hp
    unfold calculate_treasury_sf_basis ffillTable at hp
    simp only [List.mem_map] at hp
    obtain ⟨q, hq, hqp⟩ := hp
    unfold basis_before_ffill at hq
    simp only [List.mem_map] at hq
    obtain ⟨n, hn, hnq⟩ := hq
    have hq2 : q.2 = (compute_treasury_sf_basis (prepare_data t sf)).index.map
        (getCol (compute_treasury_sf_basis (prepare_data t sf)) n) := by rw [← hnq]
    have hidx2 : (compute_treasury_sf_basis (prepare_data t sf)).index = [] := by
      unfold compute_treasury_sf_basis
      rw [basisFold_index, hmerged]
    rw [hidx2] at hq2
    simp only [List.map_nil] at hq2
    rw [← hqp]
    simp [hq2, ffillList]

theorem empty_intersection_empty_result_witness :
    (calculate_treasury_sf_basis none ⟨[1], []⟩ ⟨[2], []⟩).index = [] ∧
    ∀ p ∈ (calculate_treasury_sf_basis none ⟨[1], []⟩ ⟨[2], []⟩).cols,
      p.2 = ([] : List Val) :=
  empty_intersection_empty_result ⟨[1], []⟩ ⟨[2], []⟩
    (by rintro d ⟨h1, h2⟩; simp at h1 h2; omega)

/-- C8: for every wide frame and every date window with inclusive start and
end bounds, `plot_figure` builds a figure containing exactly the tenor series
among the five fixed names that are present in the input — each restricted to
the window and with missing values dropped, absent tenors skipped without
error — and the figure is written at `save_path` afterwards. -/
theorem plot_figure_window (fs : FS) (df : Table) (save_path : String) (s e : ℕ) :
    (plot_figure fs df save_path (some s) (some e)).1.traces =
      (plot_tenors.filter (fun c => tblHas df c)).map (fun c =>
        Trace.mk (strReplace c "Treasury_SF_" "")
          (((tblSeries df c).filter (fun p => decide (s ≤ p.1) && decide (p.1 ≤ e))).filterMap
            (fun p => p.2.map (fun v => (p.1, v))))) ∧
    (plot_figure fs df save_path (some s) (some e)).2 save_path
      = some (plot_figure fs df save_path (some s) (some e)).1 := by
  constructor
  · exact foldl_filter_map (fun c => tblHas df c)
      (fun c => Trace.mk (strReplace c "Treasury_SF_" "")
        (seriesWindow (some s) (some e) (tblSeries df c))) plot_tenors []
  · simp [plot_figure]

/-- Inputs exhibiting the in-place overwrite of a pre-existing output column:
the raw Treasury frame carries both a mapped 2Y ticker column and an unmapped
column already named `Treasury_SF_2Y`. -/
def t9 : DF :=
  ⟨[0], [("USGG2YR Index_PX_LAST", fun _ => some 1), ("Treasury_SF_2Y", fun _ => some 7)]⟩

def sf9 : DF := ⟨[0], [("USOSFR2 Curncy_PX_LAST", fun _ => some 0)]⟩

/-- C9 counterexample: a merged table with both 2Y source columns and a
pre-existing `Treasury_SF_2Y` column holding 7; `compute_treasury_sf_basis`
overwrites that column with `(1 - 0) * 100 = 100`, so a column present before
the call does not keep its values — the change is an overwrite, not only an
addition. -/
theorem compute_frame_counterexample :
    getCol (prepare_data t9 sf9) "Treasury_SF_2Y" 0 = some 7 ∧
    hasCol (prepare_data t9 sf9) "Treasury_SF_2Y" = true ∧
    getCol (compute_treasury_sf_basis (prepare_data t9 sf9)) "Treasury_SF_2Y" 0
      = some 100 := by
  refine ⟨by decide, by decide, ?_⟩
  have hraw : getCol (compute_treasury_sf_basis (prepare_data t9 sf9)) "Treasury_SF_2Y" 0
      = some (((1 : ℚ) - 0) * 100) := rfl
  rw [hraw]
  norm_num

/-- C9 (amended): `compute_treasury_sf_basis` updates its argument in place
and returns it: the index is unchanged, and every column whose name is not one
of the five `Treasury_SF_{tenor}` output names keeps its presence and its
values; only output columns are set (added when absent, overwritten when
already present). -/
theorem compute_frame_effect (df : DF) (c : String)
    (hc : ∀ t ∈ tenors, outColName t ≠ c) :
    (compute_treasury_sf_basis df).index = df.index ∧
    hasCol (compute_treasury_sf_basis df) c = hasCol df c ∧
    getCol (compute_treasury_sf_basis df) c = getCol df c := by
  unfold compute_treasury_sf_basis
  exact ⟨basisFold_index tenors df, basisFold_hasCol_of_ne tenors df c hc,
    basisFold_getCol_of_ne tenors df c hc⟩

theorem compute_frame_effect_witness :
    (compute_treasury_sf_basis dfBoth2Y).index = dfBoth2Y.index ∧
    hasCol (compute_treasury_sf_basis dfBoth2Y) "2Y_Treasury" = hasCol dfBoth2Y "2Y_Treasury" ∧
    getCol (compute_treasury_sf_basis dfBoth2Y) "2Y_Treasury" = getCol dfBoth2Y "2Y_Treasury" :=
  compute_frame_effect dfBoth2Y "2Y_Treasury" (by decide)

/-- C10: in `plot_figure`, the end date only matters when a start date is
given: with no start date, any end date yields the same traces (each series
over its full range with missing values dropped) as no end date at all. -/
theorem plot_figure_end_date_ignored (fs : FS) (df : Table) (save_path : String)
    (e : Option ℕ) :
    (plot_figure fs df save_path none e).1.traces
      = (plot_figure fs df save_path none none).1.traces ∧
    (plot_figure fs df save_path none e).1.traces =
      (plot_tenors.filter (fun c => tblHas df c)).map (fun c =>
        Trace.mk (strReplace c "Treasury_SF_" "")
          ((tblSeries df c).filterMap (fun p => p.2.map (fun v => (p.1, v))))) := by
  constructor
  · rfl
  · exact foldl_filter_map (fun c => tblHas df c)
      (fun c => Trace.mk (strReplace c "Treasury_SF_" "")
        (seriesWindow none e (tblSeries df c))) plot_tenors []

end TreasurySF
